import Mathlib

/-!
Verification of the migration layer (`MigrateClientImpl` in
`server/tool/src/upgrade.ts`) and the staged full-text indexing tracker
(`loadIndexStageStage`, `traverseFullTextContexts` in the indexing utils
module) of the hcengineering platform, against its natural-language
specification.

The document store (MongoDB), the `fast-equals` deep equality library and
the class hierarchy are external collaborators; they are modelled here as
explicit Lean data (collections as lists of documents, hierarchies as
function records).  The TypeScript functions under `src/` are translated
definition-by-definition.
-/

namespace Spec2Proof

/-- Model of a JSON-like JavaScript value as manipulated by the migration
tool: `null`, booleans, numbers, strings, arrays and plain objects.
Objects are ordered association lists, mirroring JavaScript's
insertion-ordered string keys (`Object.keys` enumeration order). -/
inductive JsVal where
  | null : JsVal
  | bool : Bool → JsVal
  | num : Int → JsVal
  | str : String → JsVal
  | arr : List JsVal → JsVal
  | obj : List (String × JsVal) → JsVal
deriving Repr

/-- A JavaScript object: insertion-ordered list of key/value pairs. -/
abbrev JsObj := List (String × JsVal)

/-- Property lookup `o[k]`: the value stored under key `k`, or `none` when
the property is absent (JavaScript `undefined`). -/
def lookupField (k : String) : JsObj → Option JsVal
  | [] => none
  | (k', v) :: rest => if k' = k then some v else lookupField k rest

/-- Property assignment `o[k] = v` (also the overriding behaviour of a
spread `\x7b...o, k: v\x7d`): an existing key keeps its position and gets the
new value, a fresh key is appended at the end. -/
def setKey (fs : JsObj) (k : String) (v : JsVal) : JsObj :=
  if fs.any (fun p => p.1 = k) then
    fs.map (fun p => if p.1 = k then (k, v) else p)
  else
    fs ++ [(k, v)]

/-- Property deletion `delete o[k]`. -/
def removeKey (fs : JsObj) (k : String) : JsObj :=
  fs.filter (fun p => ¬ p.1 = k)

/-- The value of the LAST pair with key `k` (the pair that wins when an
object assignment sequence is replayed left to right). -/
def lookupLast (k : String) : JsObj → Option JsVal
  | [] => none
  | (k', v) :: rest =>
    match lookupLast k rest with
    | some w => some w
    | none => if k' = k then some v else none

mutual

/-- Structural (order-sensitive) equality on values; this is the equality
the modelled document store uses for equality filters and to decide
whether an update modified a document. -/
def JsVal.beq : JsVal → JsVal → Bool
  | .null, .null => true
  | .bool a, .bool b => a = b
  | .num a, .num b => a = b
  | .str a, .str b => a = b
  | .arr a, .arr b => beqValList a b
  | .obj a, .obj b => beqPairList a b
  | _, _ => false

/-- Pointwise `JsVal.beq` on object field lists. -/
def beqPairList : List (String × JsVal) → List (String × JsVal) → Bool
  | [], [] => true
  | (k1, v1) :: r1, (k2, v2) :: r2 => k1 = k2 && JsVal.beq v1 v2 && beqPairList r1 r2
  | _, _ => false

/-- Pointwise `JsVal.beq` on value lists. -/
def beqValList : List JsVal → List JsVal → Bool
  | [], [] => true
  | a :: as', b :: bs' => JsVal.beq a b && beqValList as' bs'
  | _, _ => false

end

mutual

/-- Model of the external `fast-equals` `deepEqual` used by
`loadIndexStageStage`: exact match on scalars, ordered elementwise
equality on arrays, and key-set equality on plain objects (same number of
own keys, and every key of the left object present in the right one with a
deep-equal value). -/
def deepEqual : JsVal → JsVal → Bool
  | .null, .null => true
  | .bool a, .bool b => a = b
  | .num a, .num b => a = b
  | .str a, .str b => a = b
  | .arr a, .arr b => deepEqualList a b
  | .obj a, .obj b => a.length = b.length && deepEqualPairs a b
  | _, _ => false

/-- Every key of the first field list maps to a deep-equal value in the
second field list. -/
def deepEqualPairs : List (String × JsVal) → List (String × JsVal) → Bool
  | [], _ => true
  | (k, v) :: rest, b =>
    (match lookupField k b with
     | some w => deepEqual v w
     | none => false) && deepEqualPairs rest b

/-- Ordered elementwise `deepEqual` on arrays. -/
def deepEqualList : List JsVal → List JsVal → Bool
  | [], [] => true
  | a :: as', b :: bs' => deepEqual a b && deepEqualList as' bs'
  | _, _ => false

end

/-- `deepEqual(attributes[field], newValue)` where the left side may be
JavaScript `undefined` (absent property): `undefined` is deep-equal to no
defined value. -/
def deepEqualOpt (o : Option JsVal) (v : JsVal) : Bool :=
  match o with
  | some w => deepEqual w v
  | none => false

/-- Character-level model of JavaScript `String.split(sep)` for a
one-character separator: the groups of characters between occurrences of
the separator (an empty string yields one empty group, as in
JavaScript). -/
def splitOnChar (sep : Char) : List Char → List (List Char)
  | [] => [[]]
  | c :: rest =>
    match splitOnChar sep rest with
    | [] => [[]]
    | g :: gs => if c = sep then [] :: g :: gs else (c :: g) :: gs

/-- Character-level model of `Array.join(sep)`. -/
def joinWith (sep : List Char) : List (List Char) → List Char
  | [] => []
  | [g] => g
  | g :: gs => g ++ sep ++ joinWith sep gs

/-- Regular-expression body built from a `$like` pattern, exactly as
`translateQuery` does: `pattern.split('%').join('.*')`, i.e. every `%`
becomes `.*` and every other character is copied verbatim. -/
def likeBody (pattern : String) : String :=
  ⟨joinWith ['.', '*'] (splitOnChar '%' pattern.data)⟩

/-- The full anchored regular expression `translateQuery` produces for a
`$like` pattern. -/
def likeRegex (pattern : String) : String :=
  "^" ++ likeBody pattern ++ "$"

/-- The native filter value `translateQuery` produces for a `$like`
pattern: an anchored case-insensitive regular expression. -/
def regexFilterVal (pattern : String) : JsVal :=
  .obj [("$regex", .str (likeRegex pattern)), ("$options", .str "i")]

/-- Translation of one query field value, following `translateQuery`'s
loop body: a non-null object whose first enumerated key is `$like` is
replaced by the anchored case-insensitive regular expression; every other
value (scalars, `null`, arrays, and objects not starting with `$like`)
falls through unchanged.  `DocumentQuery` types the `$like` payload as a
string, so only string payloads are translated. -/
def translateValue : JsVal → JsVal
  | .obj (("$like", .str pattern) :: rest) =>
    let _ := rest
    regexFilterVal pattern
  | v => v

/-- `MigrateClientImpl.translateQuery`: builds the native filter by
visiting the query keys in enumeration order and assigning the translated
value for each. -/
def translateQuery (query : JsObj) : JsObj :=
  query.foldl (fun acc kv => setKey acc kv.1 (translateValue kv.2)) []

/-- Token of the regular-expression fragment produced by
`translateQuery`: a literal character, `.` (any one character) or `.*`
(any sequence of characters). -/
inductive RTok where
  | lit : Char → RTok
  | anyChar : RTok
  | anySeq : RTok
deriving Repr, DecidableEq

/-- Lexer for the body of a produced regular expression: `.*` reads as
"any sequence", a lone `.` as "any character", every other character as a
literal. -/
def lexRegexBody : List Char → List RTok
  | [] => []
  | '.' :: '*' :: rest => .anySeq :: lexRegexBody rest
  | '.' :: rest => .anyChar :: lexRegexBody rest
  | c :: rest => .lit c :: lexRegexBody rest

/-- Matching of a token list against a character list, with a fuel
argument bounding the recursion depth (`tokens + characters + 1` always
suffices: every step shortens the token list or the character list). -/
def rmatchFuel : Nat → List RTok → List Char → Bool
  | 0, _, _ => false
  | _ + 1, [], [] => true
  | _ + 1, [], _ :: _ => false
  | _ + 1, .lit _ :: _, [] => false
  | f + 1, .lit c :: ts, d :: ds => c = d && rmatchFuel f ts ds
  | _ + 1, .anyChar :: _, [] => false
  | f + 1, .anyChar :: ts, _ :: ds => rmatchFuel f ts ds
  | f + 1, .anySeq :: ts, [] => rmatchFuel f ts []
  | f + 1, .anySeq :: ts, d :: ds =>
    rmatchFuel f ts (d :: ds) || rmatchFuel f (.anySeq :: ts) ds

/-- Matching of a token list against a character list (the whole string:
the produced expressions are anchored at both ends). -/
def rmatch (ts : List RTok) (ds : List Char) : Bool :=
  rmatchFuel (ts.length + ds.length + 1) ts ds

/-- Strip the `^` and `$` anchors the translator places around the body. -/
def stripAnchors (r : String) : String :=
  ((r.toList.drop 1).dropLast).asString

/-- Model of the document store's regular-expression matching for the
expressions `translateQuery` produces, per the external store's contract:
anchored at both ends, and when the `i` option is set both the expression
literals and the subject are compared case-insensitively. -/
def regexAccepts (r : String) (caseInsensitive : Bool) (s : String) : Bool :=
  let body := stripAnchors r
  let norm : List Char → List Char :=
    fun cs => if caseInsensitive then cs.map Char.toLower else cs
  rmatch (lexRegexBody (norm body.toList)) (norm s.toList)

/-- Reading a `$like` pattern literally: the subject must equal the
pattern character-for-character except that each `%` matches any
sequence.  Used to contrast the unescaped regex translation with the
pattern's literal meaning. -/
def likeLiteral (pattern : String) (s : String) : Bool :=
  rmatch ((pattern.toList).map
    (fun c => if c = '%' then RTok.anySeq else RTok.lit c)) s.toList

/-- Model of the external store's filter matching for the filters this
layer produces: a field whose filter value is a `$regex`/`$options`
object matches string fields through the regular expression; every other
filter value is an equality test (a missing document field matches a
`null` filter value, as in the store). -/
def matchValue (d : JsObj) (k : String) (v : JsVal) : Bool :=
  match v with
  | .obj [("$regex", .str r), ("$options", .str o)] =>
    match lookupField k d with
    | some (.str s) => regexAccepts r (o.data.contains 'i') s
    | _ => false
  | _ =>
    match lookupField k d with
    | some w => JsVal.beq w v
    | none => JsVal.beq .null v

/-- A document matches a filter when every filter field matches. -/
def matchFilter (filter : JsObj) (d : JsObj) : Bool :=
  filter.all (fun kv => matchValue d kv.1 kv.2)

/-- Application of one `$set` operator payload: assign each field in
order. -/
def applySet (fields : JsObj) (d : JsObj) : JsObj :=
  fields.foldl (fun d' kv => setKey d' kv.1 kv.2) d

/-- Model of the external store's document update: the operators of the
update document are applied in enumeration order; `$set` assigns fields,
`$unset` deletes them.  (The migration layer only ever builds update
documents out of caller-supplied set/unset style operators plus the
freshness-marker clear.) -/
def applyUpdateSpec (spec : JsObj) (d : JsObj) : JsObj :=
  spec.foldl
    (fun d' op =>
      match op with
      | ("$set", .obj fields) => applySet fields d'
      | ("$unset", .obj fields) => fields.foldl (fun d'' kv => removeKey d'' kv.1) d'
      | _ => d') d

/-- Model of the store's `updateMany`: updates every document matching
the filter, returning the new collection, the matched count and the
modified count (documents the update actually changed). -/
def updateManyDocs (filter spec : JsObj) : List JsObj → List JsObj × Nat × Nat
  | [] => ([], 0, 0)
  | d :: rest =>
    let (rest', m, u) := updateManyDocs filter spec rest
    if matchFilter filter d then
      let d' := applyUpdateSpec spec d
      (d' :: rest', m + 1, if beqPairList d d' then u else u + 1)
    else
      (d :: rest', m, u)

/-- Model of the store's `updateOne` (as used by `bulkWrite`): updates
only the first document matching the filter. -/
def updateOneDocs (filter spec : JsObj) : List JsObj → List JsObj × Nat × Nat
  | [] => ([], 0, 0)
  | d :: rest =>
    if matchFilter filter d then
      let d' := applyUpdateSpec spec d
      (d' :: rest, 1, if beqPairList d d' then 0 else 1)
    else
      let (rest', m, u) := updateOneDocs filter spec rest
      (d :: rest', m, u)

/-- Result record of a migration write: `\x7bmatched, updated\x7d`. -/
structure MigrationResult where
  matched : Nat
  updated : Nat
deriving Repr, DecidableEq

/-- Modelled from the spec: the `isOperator` predicate of the core
package (the package is part of this repository but not included under
`src/`).  Per the spec, a `MigrateUpdate` is "either a plain field→value
replacement map, or an operator document (pre-shaped set/unset
operators)": an operator document is a non-empty object all of whose keys
are operators (names starting with a dollar sign). -/
def isOperator (o : JsObj) : Bool :=
  !o.isEmpty && o.all (fun kv =>
    match kv.1.data with
    | '$' :: _ => true
    | _ => false)

/-- The operator-document branch of `MigrateClientImpl.update`: when the
operations already carry a `$set` object, assign the freshness-marker
clear into it in place; when `$set` is absent, spread the operations and
append a fresh `$set` holding only the marker clear.  (A `$set` payload
that is not an object cannot arise from the typed `MigrateUpdate`
interface; assigning into it would fault, and the operations are kept
unchanged here.) -/
def prepareOperatorUpdate (ops : JsObj) : JsObj :=
  match lookupField "$set" ops with
  | some (.obj s) => setKey ops "$set" (.obj (setKey s "%hash%" .null))
  | some _ => ops
  | none => ops ++ [("$set", .obj [("%hash%", .null)])]

/-- `MigrateClientImpl.update`: translate the query, shape the update
document depending on whether the operations are an operator document,
issue one `updateMany`, and report the store's matched/modified counts. -/
def update (coll : List JsObj) (query ops : JsObj) : MigrationResult × List JsObj :=
  if isOperator ops then
    let (coll', m, u) := updateManyDocs (translateQuery query) (prepareOperatorUpdate ops) coll
    ({ matched := m, updated := u }, coll')
  else
    let (coll', m, u) :=
      updateManyDocs (translateQuery query) [("$set", .obj (setKey ops "%hash%" .null))] coll
    ({ matched := m, updated := u }, coll')

/-- The update document `MigrateClientImpl.bulk` builds for one item:
always a single `$set` of the spread item update plus the
freshness-marker clear, whatever the shape of the item update. -/
def bulkItemSpec (upd : JsObj) : JsObj :=
  [("$set", .obj (setKey upd "%hash%" .null))]

/-- The `updateOne` descriptions `bulk` hands to the store's `bulkWrite`:
translated filter and single-`$set` update document per item. -/
def bulkWriteOps (items : List (JsObj × JsObj)) : List (JsObj × JsObj) :=
  items.map (fun it => (translateQuery it.1, bulkItemSpec it.2))

/-- Model of the store's ordered `bulkWrite` over `updateOne`
descriptions: executes them in order, aggregating matched and modified
counts. -/
def bulkWrite (coll : List JsObj) : List (JsObj × JsObj) → (Nat × Nat) × List JsObj
  | [] => ((0, 0), coll)
  | (filter, spec) :: rest =>
    let (coll', m, u) := updateOneDocs filter spec coll
    let ((m', u'), coll'') := bulkWrite coll' rest
    ((m + m', u + u'), coll'')

/-- `MigrateClientImpl.bulk`: one batched write built from the items,
reporting the aggregated matched/modified counts. -/
def bulk (coll : List JsObj) (items : List (JsObj × JsObj)) : MigrationResult × List JsObj :=
  let ((m, u), coll') := bulkWrite coll (bulkWriteOps items)
  ({ matched := m, updated := u }, coll')

/-- A store operation issued during `move`, recorded in order: the
per-document inserts into the target and the final delete against the
source. -/
inductive StoreOp where
  | insertOne : JsObj → StoreOp
  | deleteManyOp : JsObj → StoreOp
deriving Repr

/-- The freshness-marker strip `move` performs on each streamed document:
`if '%hash%' in doc, delete doc['%hash%']`. -/
def stripHash (d : JsObj) : JsObj :=
  if (lookupField "%hash%" d).isSome then removeKey d "%hash%" else d

/-- The streaming loop of `move`: pull each matching document, strip its
freshness marker, insert it into the target and count it. -/
def moveLoop (tgt : List JsObj) : List JsObj → Nat × List JsObj × List StoreOp
  | [] => (0, tgt, [])
  | d :: rest =>
    let d' := stripHash d
    let (n, tgt', tr) := moveLoop (tgt ++ [d']) rest
    (n + 1, tgt', .insertOne d' :: tr)

/-- `MigrateClientImpl.move`: translate the query once, stream the
matching source documents one at a time into the target (marker
stripped, each counted as matched and updated), and only then issue one
`deleteMany` against the source with the same translated query.  Returns
the result, the final source and target collections, and the ordered
trace of store writes. -/
def move (src tgt : List JsObj) (query : JsObj) :
    MigrationResult × List JsObj × List JsObj × List StoreOp :=
  let q := translateQuery query
  let (n, tgt', tr) := moveLoop tgt (src.filter (matchFilter q))
  ({ matched := n, updated := n },
    src.filter (fun d => ¬ matchFilter q d), tgt', tr ++ [.deleteManyOp q])

/-- Outcome of one loop round of the cursor backing `traverse`: the
guard awaits `cursor.hasNext()` and, when it resolves `true`, the body
awaits `cursor.next()`.  A round can deliver a document, a `null` from
`next()` (exhaustion signalled through the value), a rejected `next()`
promise (a store read fault inside the `try`), or a rejected
`hasNext()` promise — `hasNext()` performs the batch-fetch I/O and sits
OUTSIDE the try/catch, so its rejection is not caught. -/
inductive PullResult where
  | doc : JsObj → PullResult
  | nil : PullResult
  | fault : PullResult
  | guardFault : PullResult
deriving Repr

/-- Model of the store cursor backing `traverse`: the sequence of
outcomes its successive loop rounds will produce; an exhausted list
means `hasNext()` resolves `false`. -/
structure CursorState where
  items : List PullResult
deriving Repr

/-- A store read fault: the error a rejected store call propagates when
it is not caught. -/
inductive StoreErr where
  | ioFault : StoreErr
deriving Repr, DecidableEq

/-- Model of `cursor.hasNext()`: an awaited store call that resolves
`false` at exhaustion, resolves `true` when a further pull outcome is
pending, and rejects when the batch fetch itself faults.  The loop
awaits it in the `while` condition, outside the try/catch. -/
def hasNext (c : CursorState) : Except StoreErr Bool :=
  match c.items with
  | [] => .ok false
  | .guardFault :: _ => .error .ioFault
  | _ :: _ => .ok true

/-- The `next(size)` step of the iterator `traverse` returns, with
`docs` the accumulator of the loop: while fewer than `size` documents
are collected and `hasNext` resolves `true`, pull; a document is
appended, a `null` breaks the loop, and a rejected `cursor.next()` is
caught and turned into a `none` result (the `null` the TypeScript code
returns).  A rejected `cursor.hasNext()` in the loop guard is outside
the try/catch and propagates through the error channel.  The size check
is the left operand of the short-circuit `&&`, so when it fails
`hasNext` is not consulted and the items are left untouched. -/
def traverseNextGo (size : Nat) :
    List JsObj → List PullResult → Except StoreErr (Option (List JsObj)) × List PullResult
  | docs, [] => (.ok (some docs), [])
  | docs, p :: rest =>
    if docs.length < size then
      match p with
      | .doc d => traverseNextGo size (docs ++ [d]) rest
      | .nil => (.ok (some docs), rest)
      | .fault => (.ok none, rest)
      | .guardFault => (.error .ioFault, rest)
    else
      (.ok (some docs), p :: rest)

/-- The `next(size)` call on the iterator `traverse` returns, starting
from the empty accumulator. -/
def traverseNext (size : Nat) (docs : List JsObj) (c : CursorState) :
    Except StoreErr (Option (List JsObj)) × CursorState :=
  let r := traverseNextGo size docs c.items
  (r.1, ⟨r.2⟩)

/-- Persisted stage record: per `stageId`, the tracked attributes (the
last value stored under each tracked field together with the integer
`index` version), identified by a store id.  The `modifiedOn` wall-clock
timestamp is not modelled. -/
structure IndexStageState where
  _id : Nat
  stageId : String
  attributes : JsObj
deriving Repr

/-- The record lookup `loadIndexStageStage` performs when no cached
state is supplied: `storage.findAll(IndexStageState, \x7bstageId\x7d)` and
destructuring of the first result. -/
def storageFind (storage : List IndexStageState) (sid : String) :
    Option IndexStageState :=
  (storage.filter (fun r => r.stageId = sid)).head?

/-- Model of `generateId()`: an id not yet used by any stored record. -/
def freshId (storage : List IndexStageState) : Nat :=
  (storage.map (fun r => r._id)).foldl max 0 + 1

/-- The `boolean | string` result of `loadIndexStageStage`, mirroring
the TypeScript union. -/
inductive StageResult where
  | bool : Bool → StageResult
  | str : String → StageResult
deriving Repr, DecidableEq

/-- JavaScript template stringification of the values that can appear
under `index` (the function itself only ever stores numbers there). -/
def jsTemplate : JsVal → String
  | .null => "null"
  | .bool b => if b then "true" else "false"
  | .num n => toString n
  | .str s => s
  | .arr _ => ""
  | .obj _ => "[object Object]"

/-- The `(attributes.index as number) ?? 0` read: `null` and absence
default to `0`. -/
def indexOr0 (attrs : JsObj) : Int :=
  match lookupField "index" attrs with
  | some (.num n) => n
  | _ => 0

/-- `loadIndexStageStage`: resolve the prior state (cached, else looked
up by `stageId`), compare the candidate value against the stored value
under `field` with `deepEqual`; when equal return the stringified stored
`index` (or the `true` sentinel when none) and write nothing; when
different bump the index by one, return it stringified, and persist a
record holding the new field value and index — created when no prior
state exists, else updated in place.  Returns the result, the refreshed
state and the new storage contents.  The storage transaction is modelled
as append (create) or replacement by `_id` (update). -/
def loadIndexStageStage (storage : List IndexStageState)
    (state? : Option IndexStageState) (stageId field : String) (newValue : JsVal) :
    (StageResult × Option IndexStageState) × List IndexStageState :=
  let st := match state? with
    | some s => some s
    | none => storageFind storage stageId
  let attributes := match st with
    | some s => s.attributes
    | none => []
  let result := match lookupField "index" attributes with
    | some v => StageResult.str (jsTemplate v)
    | none => StageResult.bool true
  if deepEqualOpt (lookupField field attributes) newValue then
    ((result, st), storage)
  else
    let newIndex := indexOr0 attributes + 1
    let data := setKey [(field, newValue)] "index" (.num newIndex)
    match st with
    | none =>
      let newState : IndexStageState :=
        { _id := freshId storage, stageId := stageId, attributes := data }
      ((.str (toString newIndex), some newState), storage ++ [newState])
    | some s =>
      let newState : IndexStageState :=
        { s with stageId := stageId, attributes := data }
      ((.str (toString newIndex), some newState),
        storage.map (fun r => if r._id = s._id then newState else r))

/-- Modelled from the spec: the class hierarchy and the per-class
declared full-text contexts (`Hierarchy` and `getFullTextContext` live in
the core package of this repository, which is not included under
`src/`).  Per the spec this is a "read-only ancestor/descendant/mixin
graph over document classes, with declared per-class full-text
contexts"; a context is identified here by an opaque string payload. -/
structure ClassHierarchy where
  getAncestors : String → List String
  getDescendants : String → List String
  isMixin : String → Bool
  ftContext : String → Option String

/-- Insertion into a JavaScript `Set`: insertion-ordered, duplicates
ignored. -/
def addUnique (l : List String) (x : String) : List String :=
  if x ∈ l then l else l ++ [x]

/-- The inner loop over one ancestor's descendants: every mixin among
them joins the working set. -/
def mixinDescAdd (h : ClassHierarchy) (d : List String) (a : String) : List String :=
  (h.getDescendants a).foldl
    (fun acc dd => if h.isMixin dd then addUnique acc dd else acc) d

/-- One iteration of the ancestor loop: visit the ancestor's declared
context when it has one, and collect its mixin descendants. -/
def ancStep (h : ClassHierarchy) (acc : List String × List String) (a : String) :
    List String × List String :=
  (match h.ftContext a with
   | some c => acc.1 ++ [c]
   | none => acc.1,
   mixinDescAdd h acc.2 a)

/-- One iteration of the final loop over the working set: visit the
declared context of every mixin in it. -/
def visitMixins (h : ClassHierarchy) (vs : List String) (d : String) : List String :=
  if h.isMixin d then
    match h.ftContext d with
    | some c => vs ++ [c]
    | none => vs
  else vs

/-- `traverseFullTextContexts`, with the visitor calls reified as the
returned list (in call order): seed the working set with the class's own
descendants; visit the class's own declared context; then for each
ancestor visit its declared context and add the ancestor's mixin
descendants to the working set; finally visit the declared context of
every mixin in the working set. -/
def traverseFullTextContexts (h : ClassHierarchy) (objectClass : String) :
    List String :=
  let desc := (h.getDescendants objectClass).foldl addUnique []
  let visits0 := match h.ftContext objectClass with
    | some c => [c]
    | none => []
  let accum := (h.getAncestors objectClass).foldl (ancStep h) (visits0, desc)
  accum.2.foldl (visitMixins h) accum.1

/-- The `state?.attributes ?? \x7b\x7d` read of `loadIndexStageStage`. -/
def attrsOf : Option IndexStageState → JsObj
  | some s => s.attributes
  | none => []

/-- The attributes of the record currently stored for a stage id. -/
def storedAttrs (storage : List IndexStageState) (sid : String) : JsObj :=
  attrsOf (storageFind storage sid)

theorem lookupField_eq_none_iff (k : String) (fs : JsObj) :
    lookupField k fs = none ↔ ∀ p ∈ fs, p.1 ≠ k := by
  induction fs with
  | nil => simp [lookupField]
  | cons p rest ih =>
    obtain ⟨k', v⟩ := p
    by_cases h : k' = k <;> simp [lookupField, h, ih]

theorem setKey_of_forall_ne (fs : JsObj) (k : String) (v : JsVal)
    (h : ∀ p ∈ fs, p.1 ≠ k) : setKey fs k v = fs ++ [(k, v)] := by
  unfold setKey
  rw [if_neg]
  simp only [List.any_eq_true, decide_eq_true_eq, not_exists, not_and]
  exact fun p hp => h p hp

theorem foldl_setKey_fresh (f : String × JsVal → JsVal) :
    ∀ (q acc : JsObj), (q.map Prod.fst).Nodup →
      (∀ kv ∈ q, ∀ p ∈ acc, p.1 ≠ kv.1) →
      q.foldl (fun a kv => setKey a kv.1 (f kv)) acc
        = acc ++ q.map (fun kv => (kv.1, f kv))
  | [], acc, _, _ => by simp
  | kv :: rest, acc, hnd, hdisj => by
    simp only [List.foldl_cons]
    rw [setKey_of_forall_ne _ _ _ (fun p hp => hdisj kv (by simp) p hp)]
    rw [foldl_setKey_fresh f rest (acc ++ [(kv.1, f kv)])
      (by simpa using hnd.of_cons)
      (by
        intro kv' hkv' p hp
        rcases List.mem_append.mp hp with hacc | hnew
        · exact hdisj kv' (List.mem_cons_of_mem _ hkv') p hacc
        · have : p = (kv.1, f kv) := by simpa using hnew
          subst this
          have hne : kv.1 ∉ rest.map Prod.fst := by
            simpa using (List.nodup_cons.mp hnd).1
          intro hcontra
          exact hne (hcontra ▸ List.mem_map_of_mem Prod.fst hkv'))]
    simp

theorem translateQuery_eq_map (q : JsObj) (hq : (q.map Prod.fst).Nodup) :
    translateQuery q = q.map (fun kv => (kv.1, translateValue kv.2)) := by
  have := foldl_setKey_fresh (fun kv => translateValue kv.2) q [] hq (by simp)
  simpa [translateQuery] using this

/-- C4, amended.  The claim held `translateQuery` to translate exactly
the one-key operator object `$like: pattern` and to pass every other
value through unmodified; the code instead keys the translation on the
FIRST enumerated key being `$like` (discarding any further keys of such
an object).  Amended claim: `translateQuery` is a pure total function
that maps every field whose value is an object with first key `$like`
(string pattern) to a case-insensitive regular expression anchored at
both ends in which each `%` of the pattern is replaced by `.*`, and
passes every other field value (scalars, `null`, arrays, and objects not
starting with the `$like` key) through unmodified. -/
theorem c4_translateQuery_amended (q : JsObj) (hq : (q.map Prod.fst).Nodup) :
    translateQuery q = q.map (fun kv =>
      (kv.1,
        match kv.2 with
        | JsVal.obj (("$like", JsVal.str p) :: _) =>
          JsVal.obj [("$regex", JsVal.str ("^" ++ likeBody p ++ "$")),
                     ("$options", JsVal.str "i")]
        | v => v)) := by
  rw [translateQuery_eq_map q hq]
  rfl

/-- C4 witness: the amended claim applied to a two-field query holding a
`$like` operator and a plain equality. -/
theorem c4_translateQuery_amended_witness :
    translateQuery [("name", JsVal.obj [("$like", JsVal.str "ab%c")]), ("age", JsVal.num 7)]
      = [("name", JsVal.obj [("$regex", JsVal.str "^ab.*c$"), ("$options", JsVal.str "i")]),
         ("age", JsVal.num 7)] :=
  (c4_translateQuery_amended
    [("name", JsVal.obj [("$like", JsVal.str "ab%c")]), ("age", JsVal.num 7)]
    (by simp)).trans rfl

/-- C4 counterexample: the value `\x7b$like: "a", b: null\x7d` is not the
operator object `\x7b$like: pattern\x7d` alone, so per the claim it should
pass through unmodified; `translateQuery` nevertheless rewrites it into
the regular expression, discarding the second key. -/
theorem c4_translateQuery_counterexample :
    translateQuery [("k", JsVal.obj [("$like", JsVal.str "a"), ("b", JsVal.null)])]
      = [("k", JsVal.obj [("$regex", JsVal.str "^a$"), ("$options", JsVal.str "i")])]
    ∧ JsVal.obj [("$like", JsVal.str "a"), ("b", JsVal.null)]
        ≠ JsVal.obj [("$like", JsVal.str "a")]
    ∧ translateQuery [("k", JsVal.obj [("$like", JsVal.str "a"), ("b", JsVal.null)])]
        ≠ [("k", JsVal.obj [("$like", JsVal.str "a"), ("b", JsVal.null)])] := by
  refine ⟨rfl, ?_, ?_⟩
  · intro h
    have := congrArg (fun v => match v with | JsVal.obj l => l.length | _ => 0) h
    simp at this
  · intro h
    have h2 : [("k", JsVal.obj [("$regex", JsVal.str "^a$"), ("$options", JsVal.str "i")])]
        = [("k", JsVal.obj [("$like", JsVal.str "a"), ("b", JsVal.null)])] :=
      Eq.trans
        (rfl :
          [("k", JsVal.obj [("$regex", JsVal.str "^a$"), ("$options", JsVal.str "i")])]
            = translateQuery [("k", JsVal.obj [("$like", JsVal.str "a"), ("b", JsVal.null)])])
        h
    have := congrArg
      (fun l : JsObj => match l with
        | (_, JsVal.obj ((k0, _) :: _)) :: _ => k0
        | _ => "") h2
    simp at this

/-- C9: `translateQuery` copies non-`%` pattern characters verbatim with
no escaping, so regex metacharacters keep their regex meaning: the
pattern `a.c` yields the body `a.c` unchanged, whose `.` matches any
character — the produced filter accepts `axc`, which the pattern read
literally (only `%` as a wildcard) would reject. -/
theorem c9_unescaped_metacharacters :
    likeBody "a.c" = "a.c"
    ∧ translateQuery [("k", JsVal.obj [("$like", JsVal.str "a.c")])]
        = [("k", JsVal.obj [("$regex", JsVal.str "^a.c$"), ("$options", JsVal.str "i")])]
    ∧ matchValue [("k", JsVal.str "axc")] "k" (regexFilterVal "a.c") = true
    ∧ likeLiteral "a.c" "axc" = false
    ∧ likeLiteral "a.c" "a.c" = true :=
  ⟨rfl, rfl, rfl, rfl, rfl⟩

/-- C10: the `$like` translation fires exactly when a field's value is a
non-null object whose FIRST enumerated key is `$like`; any other object
value — even one containing `$like` in a later position — is passed to
the native filter verbatim. -/
theorem c10_like_first_key_only (k : String) (fields : JsObj) :
    (∀ p rest, fields = ("$like", JsVal.str p) :: rest →
      translateQuery [(k, JsVal.obj fields)] = [(k, regexFilterVal p)])
    ∧ ((fields.map Prod.fst).head? ≠ some "$like" →
      translateQuery [(k, JsVal.obj fields)] = [(k, JsVal.obj fields)]) := by
  constructor
  · intro p rest hf
    subst hf
    rfl
  · intro hne
    match fields with
    | [] => rfl
    | (k0, v0) :: rest =>
      have hk0 : k0 ≠ "$like" := by simpa using hne
      cases v0 <;> simp [translateQuery, translateValue, setKey, hk0]

/-- C10 witness: the translation fires on a first-position `$like` and
does not fire on a later-position one. -/
theorem c10_like_first_key_only_witness :
    translateQuery [("k", JsVal.obj [("$like", JsVal.str "a"), ("b", JsVal.null)])]
      = [("k", regexFilterVal "a")]
    ∧ translateQuery [("k", JsVal.obj [("b", JsVal.null), ("$like", JsVal.str "a")])]
      = [("k", JsVal.obj [("b", JsVal.null), ("$like", JsVal.str "a")])] :=
  ⟨(c10_like_first_key_only "k" [("$like", JsVal.str "a"), ("b", JsVal.null)]).1
      "a" [("b", JsVal.null)] rfl,
   (c10_like_first_key_only "k" [("b", JsVal.null), ("$like", JsVal.str "a")]).2
      (by simp)⟩

theorem traverseNextGo_length : ∀ (items : List PullResult) (size : Nat) (docs : List JsObj),
    docs.length ≤ size →
    ∀ ds : List JsObj, (traverseNextGo size docs items).1 = Except.ok (some ds) →
    ds.length ≤ size
  | [], size, docs, hle, ds, h => by
    simp only [traverseNextGo, Except.ok.injEq, Option.some.injEq] at h
    exact h ▸ hle
  | p :: rest, size, docs, hle, ds, h => by
    by_cases hlt : docs.length < size
    · cases p with
      | doc d =>
        simp only [traverseNextGo, if_pos hlt] at h
        exact traverseNextGo_length rest size (docs ++ [d])
          (by simpa using hlt) ds h
      | nil =>
        simp only [traverseNextGo, if_pos hlt, Except.ok.injEq, Option.some.injEq] at h
        exact h ▸ hle
      | fault =>
        simp only [traverseNextGo, if_pos hlt] at h
        exact absurd h (by simp)
      | guardFault =>
        simp only [traverseNextGo, if_pos hlt] at h
        exact absurd h (by simp)
    · simp only [traverseNextGo, if_neg hlt, Except.ok.injEq, Option.some.injEq] at h
      exact h ▸ hle

theorem traverseNextGo_fault : ∀ (pre : List JsObj) (size : Nat) (docs : List JsObj)
    (rest : List PullResult), docs.length + pre.length < size →
    traverseNextGo size docs (pre.map PullResult.doc ++ PullResult.fault :: rest)
      = (Except.ok none, rest)
  | [], size, docs, rest, hlt => by
    simp only [List.map_nil, List.nil_append, traverseNextGo]
    rw [if_pos (by omega)]
  | d :: pre', size, docs, rest, hlt => by
    simp only [List.map_cons, List.cons_append, traverseNextGo]
    rw [if_pos (by omega)]
    exact traverseNextGo_fault pre' size (docs ++ [d]) rest
      (by simp only [List.length_append, List.length_cons, List.length_nil] at hlt ⊢; omega)

/-- C7: one `next(size)` call on the iterator `traverse` returns never
returns more than `size` documents. -/
theorem c7_traverse_next_size_bound (size : Nat) (c : CursorState)
    (ds : List JsObj) (c' : CursorState)
    (h : traverseNext size [] c = (Except.ok (some ds), c')) :
    ds.length ≤ size := by
  have h1 : (traverseNextGo size [] c.items).1 = Except.ok (some ds) := by
    have := congrArg Prod.fst h
    simpa [traverseNext] using this
  exact traverseNextGo_length c.items size [] (by simp) ds h1

/-- C7 witness: pulling 2 from a 3-document cursor yields 2 documents. -/
theorem c7_traverse_next_size_bound_witness :
    ([[("a", JsVal.num 1)], [("a", JsVal.num 2)]] : List JsObj).length ≤ 2 :=
  c7_traverse_next_size_bound 2
    ⟨[PullResult.doc [("a", JsVal.num 1)], PullResult.doc [("a", JsVal.num 2)],
      PullResult.doc [("a", JsVal.num 3)]]⟩
    [[("a", JsVal.num 1)], [("a", JsVal.num 2)]]
    ⟨[PullResult.doc [("a", JsVal.num 3)]]⟩ rfl

theorem traverseNextGo_guardFault : ∀ (pre : List JsObj) (size : Nat) (docs : List JsObj)
    (rest : List PullResult), docs.length + pre.length < size →
    traverseNextGo size docs (pre.map PullResult.doc ++ PullResult.guardFault :: rest)
      = (Except.error StoreErr.ioFault, rest)
  | [], size, docs, rest, hlt => by
    simp only [List.map_nil, List.nil_append, traverseNextGo]
    rw [if_pos (by omega)]
  | d :: pre', size, docs, rest, hlt => by
    simp only [List.map_cons, List.cons_append, traverseNextGo]
    rw [if_pos (by omega)]
    exact traverseNextGo_guardFault pre' size (docs ++ [d]) rest
      (by simp only [List.length_append, List.length_cons, List.length_nil] at hlt ⊢; omega)

/-- C3 counterexample: the claim held EVERY store read fault raised
during a `next(n)` pull to become a terminal null result instead of
propagating; but the loop guard's `cursor.hasNext()` — itself a store
read — is awaited outside the try/catch, so its fault resolves through
the error channel, not as the terminal null. -/
theorem c3_traverse_fault_counterexample :
    traverseNext 1 [] ⟨[PullResult.guardFault]⟩
      = (Except.error StoreErr.ioFault, ⟨[]⟩)
    ∧ (Except.error StoreErr.ioFault : Except StoreErr (Option (List JsObj)))
        ≠ Except.ok none :=
  ⟨rfl, by simp⟩

/-- C3, amended.  A store read fault raised by `cursor.next()` inside
the pull loop is caught and converted into a terminal null result
returned to the caller; a store read fault raised by the loop guard's
`cursor.hasNext()` call — which sits outside the try/catch — propagates
to the caller as an exception. -/
theorem c3_traverse_fault_paths :
    (∀ (size : Nat) (pre : List JsObj) (rest : List PullResult),
      pre.length < size →
      traverseNext size [] ⟨pre.map PullResult.doc ++ PullResult.fault :: rest⟩
        = (Except.ok none, ⟨rest⟩))
    ∧ (∀ (size : Nat) (pre : List JsObj) (rest : List PullResult),
      pre.length < size →
      traverseNext size [] ⟨pre.map PullResult.doc ++ PullResult.guardFault :: rest⟩
        = (Except.error StoreErr.ioFault, ⟨rest⟩)) := by
  constructor
  · intro size pre rest hlt
    simp only [traverseNext]
    rw [traverseNextGo_fault pre size [] rest (by simpa using hlt)]
  · intro size pre rest hlt
    simp only [traverseNext]
    rw [traverseNextGo_guardFault pre size [] rest (by simpa using hlt)]

/-- C3 witness: after one successful pull, a rejected `next()` resolves
with the terminal null while a rejected `hasNext()` propagates the
fault. -/
theorem c3_traverse_fault_paths_witness :
    traverseNext 5 [] ⟨[PullResult.doc [("a", JsVal.num 1)], PullResult.fault]⟩
      = (Except.ok none, ⟨[]⟩)
    ∧ traverseNext 5 [] ⟨[PullResult.doc [("a", JsVal.num 1)], PullResult.guardFault]⟩
      = (Except.error StoreErr.ioFault, ⟨[]⟩) :=
  ⟨c3_traverse_fault_paths.1 5 [[("a", JsVal.num 1)]] [] (by decide),
   c3_traverse_fault_paths.2 5 [[("a", JsVal.num 1)]] [] (by decide)⟩

theorem lookupField_removeKey_self (fs : JsObj) (k : String) :
    lookupField k (removeKey fs k) = none := by
  induction fs with
  | nil => rfl
  | cons p rest ih =>
    obtain ⟨k', v⟩ := p
    by_cases h : k' = k <;> simp [removeKey, lookupField, h] at ih ⊢ <;>
      simpa [removeKey] using ih

theorem stripHash_no_marker (d : JsObj) :
    lookupField "%hash%" (stripHash d) = none := by
  unfold stripHash
  by_cases h : (lookupField "%hash%" d).isSome
  · rw [if_pos h]
    exact lookupField_removeKey_self d "%hash%"
  · rw [if_neg h]
    exact Option.not_isSome_iff_eq_none.mp h

theorem moveLoop_eq : ∀ (docs tgt : List JsObj),
    moveLoop tgt docs =
      (docs.length, tgt ++ docs.map stripHash,
        docs.map (fun d => StoreOp.insertOne (stripHash d)))
  | [], tgt => by simp [moveLoop]
  | d :: rest, tgt => by
    simp only [moveLoop, moveLoop_eq rest (tgt ++ [stripHash d]), List.map_cons,
      List.length_cons, List.append_assoc, List.singleton_append]

/-- C5: `move` streams the matching source documents in order into the
target, stripping the freshness marker from each before insertion and
counting each as matched and updated; the single `deleteMany` against
the translated query is the last store write, after every insert; no
document matching the query remains in the source afterwards, and no
inserted document carries a freshness marker. -/
theorem c5_move (src tgt : List JsObj) (query : JsObj) :
    move src tgt query =
      ({ matched := (src.filter (matchFilter (translateQuery query))).length,
         updated := (src.filter (matchFilter (translateQuery query))).length },
        src.filter (fun d => ¬ matchFilter (translateQuery query) d),
        tgt ++ (src.filter (matchFilter (translateQuery query))).map stripHash,
        ((src.filter (matchFilter (translateQuery query))).map
          (fun d => StoreOp.insertOne (stripHash d)))
          ++ [StoreOp.deleteManyOp (translateQuery query)])
    ∧ (∀ d ∈ src.filter (fun d => ¬ matchFilter (translateQuery query) d),
        matchFilter (translateQuery query) d = false)
    ∧ (∀ d : JsObj, lookupField "%hash%" (stripHash d) = none) := by
  refine ⟨?_, ?_, stripHash_no_marker⟩
  · simp only [move, moveLoop_eq]
  · intro d hd
    have := (List.mem_filter.mp hd).2
    simpa using this

/-- C5 witness: moving the `a = 1` documents strips the marker, inserts
before the final delete, and empties the matching part of the source. -/
theorem c5_move_witness :
    move [[("a", JsVal.num 1), ("%hash%", JsVal.str "h")], [("a", JsVal.num 2)]]
        [] [("a", JsVal.num 1)]
      = ({ matched := 1, updated := 1 },
         [[("a", JsVal.num 2)]],
         [[("a", JsVal.num 1)]],
         [StoreOp.insertOne [("a", JsVal.num 1)],
          StoreOp.deleteManyOp [("a", JsVal.num 1)]])
    ∧ lookupField "%hash%"
        (stripHash [("a", JsVal.num 1), ("%hash%", JsVal.str "h")]) = none :=
  ⟨(c5_move [[("a", JsVal.num 1), ("%hash%", JsVal.str "h")], [("a", JsVal.num 2)]]
      [] [("a", JsVal.num 1)]).1.trans rfl,
   (c5_move [[("a", JsVal.num 1), ("%hash%", JsVal.str "h")], [("a", JsVal.num 2)]]
      [] [("a", JsVal.num 1)]).2.2 [("a", JsVal.num 1), ("%hash%", JsVal.str "h")]⟩

theorem lookupField_append (k : String) (a b : JsObj) :
    lookupField k (a ++ b)
      = match lookupField k a with
        | some v => some v
        | none => lookupField k b := by
  induction a with
  | nil => simp [lookupField]
  | cons p rest ih =>
    obtain ⟨k', v⟩ := p
    by_cases h : k' = k <;> simp [lookupField, h, ih]

theorem lookupField_map_replace (fs : JsObj) (k0 : String) (v0 : JsVal)
    (k : String) (hne : k0 ≠ k) :
    lookupField k (fs.map (fun p => if p.1 = k0 then (k0, v0) else p))
      = lookupField k fs := by
  induction fs with
  | nil => rfl
  | cons p rest ih =>
    obtain ⟨k', v⟩ := p
    by_cases h0 : k' = k0
    · subst h0
      simp only [List.map_cons, if_pos rfl]
      simp [lookupField, hne, ih]
    · by_cases h : k' = k
      · subst h
        simp only [List.map_cons, if_neg h0]
        simp [lookupField, h0, ih]
      · simp only [List.map_cons, if_neg h0]
        simp [lookupField, h0, h, ih]

theorem map_replace_id (fs : JsObj) (k : String) (v : JsVal)
    (h : ∀ p ∈ fs, p.1 ≠ k) :
    fs.map (fun p => if p.1 = k then (k, v) else p) = fs := by
  induction fs with
  | nil => rfl
  | cons p rest ih =>
    simp only [List.map_cons, if_neg (h p (by simp)), List.cons.injEq, true_and]
    exact ih (fun q hq => h q (List.mem_cons_of_mem _ hq))

theorem lookupField_setKey_self (fs : JsObj) (k : String) (v : JsVal) :
    lookupField k (setKey fs k v) = some v := by
  unfold setKey
  by_cases hany : fs.any (fun p => p.1 = k)
  · rw [if_pos hany]
    induction fs with
    | nil => simp at hany
    | cons p rest ih =>
      obtain ⟨k', w⟩ := p
      by_cases h : k' = k
      · subst h
        simp only [List.map_cons, if_pos rfl]
        simp [lookupField]
      · have hr : rest.any (fun p => p.1 = k) := by
          simpa [List.any_cons, h] using hany
        simp only [List.map_cons, if_neg h]
        simpa [lookupField, h] using ih hr
  · rw [if_neg hany]
    rw [lookupField_append]
    have hnone : lookupField k fs = none := by
      rw [lookupField_eq_none_iff]
      intro p hp
      simp only [List.any_eq_true, decide_eq_true_eq, not_exists, not_and] at hany
      exact hany p hp
    simp [hnone, lookupField]

theorem lookupField_setKey (fs : JsObj) (k0 : String) (v0 : JsVal) (k : String) :
    lookupField k (setKey fs k0 v0)
      = if k0 = k then some v0 else lookupField k fs := by
  by_cases h : k0 = k
  · subst h
    simp [lookupField_setKey_self]
  · rw [if_neg h]
    unfold setKey
    by_cases hany : fs.any (fun p => p.1 = k0)
    · rw [if_pos hany]
      exact lookupField_map_replace fs k0 v0 k h
    · rw [if_neg hany, lookupField_append]
      cases hfs : lookupField k fs <;> simp [lookupField, h]

theorem lookupLast_append (k : String) (a b : JsObj) :
    lookupLast k (a ++ b)
      = match lookupLast k b with
        | some v => some v
        | none => lookupLast k a := by
  induction a with
  | nil => cases h : lookupLast k b <;> simp [lookupLast, h]
  | cons p rest ih =>
    obtain ⟨k', v⟩ := p
    cases h : lookupLast k b <;> simp [lookupLast, ih, h] <;>
      cases h2 : lookupLast k rest <;> simp

theorem lookupLast_eq_none_of (fs : JsObj) (k : String)
    (h : ∀ p ∈ fs, p.1 ≠ k) : lookupLast k fs = none := by
  induction fs with
  | nil => rfl
  | cons p rest ih =>
    obtain ⟨k', v⟩ := p
    have h1 : k' ≠ k := h (k', v) (by simp)
    simp only [lookupLast, ih (fun q hq => h q (List.mem_cons_of_mem _ hq)), if_neg h1]

theorem lookupLast_map_replace (fs : JsObj) (k0 : String) (v0 : JsVal)
    (k : String) (hne : k0 ≠ k) :
    lookupLast k (fs.map (fun p => if p.1 = k0 then (k0, v0) else p))
      = lookupLast k fs := by
  induction fs with
  | nil => rfl
  | cons p rest ih =>
    obtain ⟨k', v⟩ := p
    by_cases h0 : k' = k0
    · subst h0
      simp only [List.map_cons, if_pos rfl]
      simp [lookupLast, ih, hne]
    · simp only [List.map_cons, if_neg h0]
      simp [lookupLast, h0, ih]

theorem lookupLast_setKey_self (fs : JsObj) (k : String) (v : JsVal) :
    lookupLast k (setKey fs k v) = some v := by
  unfold setKey
  by_cases hany : fs.any (fun p => p.1 = k)
  · rw [if_pos hany]
    induction fs with
    | nil => simp at hany
    | cons p rest ih =>
      obtain ⟨k', w⟩ := p
      by_cases h : rest.any (fun p => p.1 = k)
      · have := ih h
        by_cases hk : k' = k
        · subst hk
          simp only [List.map_cons, if_pos rfl]
          simp [lookupLast, this]
        · simp only [List.map_cons, if_neg hk]
          simp [lookupLast, this]
      · have hk : k' = k := by simpa [List.any_cons, h] using hany
        subst hk
        have hrest : ∀ p ∈ rest, p.1 ≠ k' := by
          simp only [List.any_eq_true, decide_eq_true_eq, not_exists, not_and] at h
          exact h
        simp only [List.map_cons, if_pos rfl]
        rw [map_replace_id rest k' v hrest]
        simp [lookupLast, lookupLast_eq_none_of rest k' hrest]
  · rw [if_neg hany, lookupLast_append]
    simp [lookupLast]

theorem lookupLast_setKey_ne (fs : JsObj) (k0 : String) (v0 : JsVal)
    (k : String) (hne : k0 ≠ k) :
    lookupLast k (setKey fs k0 v0) = lookupLast k fs := by
  unfold setKey
  by_cases hany : fs.any (fun p => p.1 = k0)
  · rw [if_pos hany]
    exact lookupLast_map_replace fs k0 v0 k hne
  · rw [if_neg hany, lookupLast_append]
    simp [lookupLast, hne]

theorem lookupField_applySet (k : String) : ∀ (fields : JsObj) (d : JsObj),
    lookupField k (applySet fields d)
      = match lookupLast k fields with
        | some v => some v
        | none => lookupField k d
  | [], d => by simp [applySet, lookupLast]
  | (k0, v0) :: rest, d => by
    have ih := lookupField_applySet k rest (setKey d k0 v0)
    simp only [applySet, List.foldl_cons] at ih ⊢
    rw [ih, lookupField_setKey d k0 v0 k]
    cases h : lookupLast k rest <;> simp [lookupLast, h] <;>
      by_cases hk : k0 = k <;> simp [hk]

theorem lookupField_removeKey_ne (fs : JsObj) (k k' : String) (hne : k' ≠ k) :
    lookupField k (removeKey fs k') = lookupField k fs := by
  induction fs with
  | nil => rfl
  | cons p rest ih =>
    obtain ⟨k0, v⟩ := p
    by_cases h0 : k0 = k'
    · subst h0
      rw [show removeKey ((k0, v) :: rest) k0 = removeKey rest k0 by
        simp [removeKey]]
      rw [ih]
      simp [lookupField, hne]
    · rw [show removeKey ((k0, v) :: rest) k' = (k0, v) :: removeKey rest k' by
        simp [removeKey, h0]]
      by_cases h : k0 = k
      · subst h
        simp [lookupField, ih]
      · simp [lookupField, h, ih]

theorem foldl_removeKey_preserve (k : String) : ∀ (fields : JsObj) (d : JsObj),
    (∀ kv ∈ fields, kv.1 ≠ k) →
    lookupField k (fields.foldl (fun d' kv => removeKey d' kv.1) d)
      = lookupField k d
  | [], d, _ => rfl
  | kv :: rest, d, h => by
    simp only [List.foldl_cons]
    rw [foldl_removeKey_preserve k rest (removeKey d kv.1)
      (fun q hq => h q (List.mem_cons_of_mem _ hq))]
    exact lookupField_removeKey_ne d k kv.1 (h kv (by simp))

theorem applyUpdateSpec_cons (op : String × JsVal) (rest : JsObj) (d : JsObj) :
    applyUpdateSpec (op :: rest) d = applyUpdateSpec rest (applyUpdateSpec [op] d) := rfl

theorem applyUpdateSpec_single_preserve (op : String × JsVal) (d : JsObj)
    (h1 : ∀ f : JsObj, op ≠ ("$set", JsVal.obj f))
    (h2 : ∀ f : JsObj, op = ("$unset", JsVal.obj f) → lookupField "%hash%" f = none) :
    lookupField "%hash%" (applyUpdateSpec [op] d) = lookupField "%hash%" d := by
  obtain ⟨k, v⟩ := op
  simp only [applyUpdateSpec, List.foldl_cons, List.foldl_nil]
  split
  · next fields heq =>
    exact absurd heq (h1 fields)
  · next fields heq =>
    have hnone := h2 fields heq
    exact foldl_removeKey_preserve "%hash%" fields d
      ((lookupField_eq_none_iff "%hash%" fields).mp hnone)
  · rfl

theorem applyUpdateSpec_post_preserve : ∀ (post : JsObj) (d : JsObj),
    (∀ op ∈ post, (∀ f : JsObj, op ≠ ("$set", JsVal.obj f))
      ∧ (∀ f : JsObj, op = ("$unset", JsVal.obj f) → lookupField "%hash%" f = none)) →
    lookupField "%hash%" (applyUpdateSpec post d) = lookupField "%hash%" d
  | [], _, _ => rfl
  | op :: rest, d, h => by
    rw [applyUpdateSpec_cons]
    rw [applyUpdateSpec_post_preserve rest _
      (fun q hq => h q (List.mem_cons_of_mem _ hq))]
    exact applyUpdateSpec_single_preserve op d (h op (by simp)).1 (h op (by simp)).2

theorem applyUpdateSpec_sets_hash : ∀ (pre : JsObj) (s post : JsObj) (d : JsObj),
    lookupLast "%hash%" s = some JsVal.null →
    (∀ op ∈ post, (∀ f : JsObj, op ≠ ("$set", JsVal.obj f))
      ∧ (∀ f : JsObj, op = ("$unset", JsVal.obj f) → lookupField "%hash%" f = none)) →
    lookupField "%hash%" (applyUpdateSpec (pre ++ ("$set", JsVal.obj s) :: post) d)
      = some JsVal.null
  | [], s, post, d, hs, hpost => by
    rw [List.nil_append, applyUpdateSpec_cons,
      applyUpdateSpec_post_preserve post _ hpost,
      show applyUpdateSpec [("$set", JsVal.obj s)] d = applySet s d from rfl,
      lookupField_applySet "%hash%" s d, hs]
  | op :: pre', s, post, d, hs, hpost => by
    rw [List.cons_append, applyUpdateSpec_cons]
    exact applyUpdateSpec_sets_hash pre' s post _ hs hpost

theorem lookupField_decomp (k : String) : ∀ (fs : JsObj) (v : JsVal),
    lookupField k fs = some v →
    ∃ pre post, fs = pre ++ (k, v) :: post ∧ ∀ p ∈ pre, p.1 ≠ k
  | [], v, h => by simp [lookupField] at h
  | (k', w) :: rest, v, h => by
    by_cases hk : k' = k
    · subst hk
      have hw : w = v := by simpa [lookupField] using h
      exact ⟨[], rest, by rw [hw]; rfl, by simp⟩
    · have h' : lookupField k rest = some v := by simpa [lookupField, hk] using h
      obtain ⟨pre, post, heq, hpre⟩ := lookupField_decomp k rest v h'
      refine ⟨(k', w) :: pre, post, by rw [heq]; rfl, ?_⟩
      intro p hp
      rcases List.mem_cons.mp hp with rfl | hp'
      · exact hk
      · exact hpre p hp'

theorem setKey_decomp (pre post : JsObj) (k : String) (v w : JsVal)
    (hpre : ∀ p ∈ pre, p.1 ≠ k) (hpost : ∀ p ∈ post, p.1 ≠ k) :
    setKey (pre ++ (k, v) :: post) k w = pre ++ (k, w) :: post := by
  unfold setKey
  rw [if_pos (by simp [List.any_append, List.any_cons])]
  rw [List.map_append, List.map_cons]
  rw [map_replace_id pre k w hpre, map_replace_id post k w hpost]
  simp

theorem lookupField_of_mem_nodup : ∀ (fs : JsObj), (fs.map Prod.fst).Nodup →
    ∀ (k : String) (v : JsVal), (k, v) ∈ fs → lookupField k fs = some v
  | [], _, k, v, h => by simp at h
  | (k', w) :: rest, hnd, k, v, h => by
    rcases List.mem_cons.mp h with heq | hmem
    · cases heq
      simp [lookupField]
    · by_cases hk : k' = k
      · subst hk
        exfalso
        have hmm : k' ∈ rest.map Prod.fst := by
          have := List.mem_map_of_mem Prod.fst hmem
          simpa using this
        exact (List.nodup_cons.mp (by simpa using hnd)).1 hmm
      · rw [show lookupField k ((k', w) :: rest)
            = lookupField k rest by simp [lookupField, hk]]
        exact lookupField_of_mem_nodup rest
          (by simpa using (List.nodup_cons.mp (by simpa using hnd)).2) k v hmem

theorem post_keys_ne (pre post : JsObj) (k0 : String) (v : JsVal)
    (hnd : ((pre ++ (k0, v) :: post).map Prod.fst).Nodup) :
    ∀ p ∈ post, p.1 ≠ k0 := by
  intro p hp hcontra
  rw [List.map_append, List.map_cons] at hnd
  have h1 := (List.nodup_append.mp hnd).2.1
  have h2 := (List.nodup_cons.mp h1).1
  have hmem : p.1 ∈ post.map Prod.fst := List.mem_map_of_mem Prod.fst hp
  exact h2 (hcontra ▸ hmem)

theorem updateManyDocs_eq (filter spec : JsObj) : ∀ coll : List JsObj,
    updateManyDocs filter spec coll =
      (coll.map (fun d => if matchFilter filter d then applyUpdateSpec spec d else d),
        (coll.filter (fun d => matchFilter filter d)).length,
        (coll.filter (fun d => matchFilter filter d
          && ! beqPairList d (applyUpdateSpec spec d))).length)
  | [] => rfl
  | d :: rest => by
    simp only [updateManyDocs, updateManyDocs_eq filter spec rest]
    by_cases hm : matchFilter filter d
    · by_cases hb : beqPairList d (applyUpdateSpec spec d)
        <;> simp [hm, hb, List.filter_cons]
    · simp [hm, List.filter_cons]

/-- C1: `update` shapes the update document as the claim states — for an
operator document the freshness-marker clear `%hash%: null` is merged
into its `$set` (one is created when absent), for a plain map the whole
map is wrapped in a single `$set` together with the marker clear — then
executes exactly one multi-document `updateMany` against all matching
documents and returns `matched`/`updated` from the store's
matched/modified counts; the prepared update document sets the marker of
every document it is applied to to `null`.  The hypotheses state what the
typed `MigrateUpdate` interface guarantees: object keys are unique, a
`$set` payload is an object, and a `$unset` payload does not itself
target the marker. -/
theorem c1_update_clears_marker (coll : List JsObj) (query ops : JsObj)
    (hnodup : (ops.map Prod.fst).Nodup)
    (hset : ∀ v, lookupField "$set" ops = some v → ∃ s, v = JsVal.obj s)
    (hunset : ∀ u, lookupField "$unset" ops = some (JsVal.obj u) →
      lookupField "%hash%" u = none) :
    ∃ spec : JsObj,
      ((isOperator ops = true ∧
        ((∃ s, lookupField "$set" ops = some (JsVal.obj s) ∧
          spec = setKey ops "$set" (JsVal.obj (setKey s "%hash%" JsVal.null)))
         ∨ (lookupField "$set" ops = none ∧
          spec = ops ++ [("$set", JsVal.obj [("%hash%", JsVal.null)])])))
       ∨ (isOperator ops = false ∧
          spec = [("$set", JsVal.obj (setKey ops "%hash%" JsVal.null))]))
      ∧ update coll query ops =
        ({ matched := (coll.filter (fun d => matchFilter (translateQuery query) d)).length,
           updated := (coll.filter (fun d => matchFilter (translateQuery query) d
             && ! beqPairList d (applyUpdateSpec spec d))).length },
          coll.map (fun d => if matchFilter (translateQuery query) d
            then applyUpdateSpec spec d else d))
      ∧ (∀ d : JsObj, lookupField "%hash%" (applyUpdateSpec spec d) = some JsVal.null) := by
  by_cases hop : isOperator ops
  · refine ⟨prepareOperatorUpdate ops, ?_, ?_, ?_⟩
    · left
      refine ⟨hop, ?_⟩
      cases hs : lookupField "$set" ops with
      | some v =>
        obtain ⟨s, rfl⟩ := hset v hs
        left
        exact ⟨s, rfl, by rw [prepareOperatorUpdate, hs]⟩
      | none =>
        right
        exact ⟨rfl, by rw [prepareOperatorUpdate, hs]⟩
    · rw [show update coll query ops
          = (let r := updateManyDocs (translateQuery query) (prepareOperatorUpdate ops) coll
             ({ matched := r.2.1, updated := r.2.2 }, r.1))
        from by simp only [update, if_pos hop]]
      rw [updateManyDocs_eq]
    · intro d
      cases hs : lookupField "$set" ops with
      | some v =>
        obtain ⟨s, rfl⟩ := hset v hs
        obtain ⟨pre, post, heq, hpre⟩ := lookupField_decomp "$set" ops (JsVal.obj s) hs
        have hpost : ∀ p ∈ post, p.1 ≠ "$set" := by
          apply post_keys_ne pre post "$set" (JsVal.obj s)
          rw [← heq]
          exact hnodup
        have hspec : prepareOperatorUpdate ops
            = pre ++ ("$set", JsVal.obj (setKey s "%hash%" JsVal.null)) :: post := by
          rw [prepareOperatorUpdate, hs, heq]
          exact setKey_decomp pre post "$set" (JsVal.obj s) _ hpre hpost
        rw [hspec]
        apply applyUpdateSpec_sets_hash
        · exact lookupLast_setKey_self s "%hash%" JsVal.null
        · intro op hmem
          constructor
          · intro f hcontra
            exact (hpost op hmem) (by rw [hcontra])
          · intro f hcontra
            apply hunset f
            apply lookupField_of_mem_nodup ops hnodup
            rw [heq]
            exact List.mem_append.mpr (Or.inr (List.mem_cons_of_mem _ (hcontra ▸ hmem)))
      | none =>
        have hspec : prepareOperatorUpdate ops
            = ops ++ ("$set", JsVal.obj [("%hash%", JsVal.null)]) :: [] := by
          rw [prepareOperatorUpdate, hs]
        rw [hspec]
        apply applyUpdateSpec_sets_hash
        · rfl
        · intro op hmem
          simp at hmem
  · refine ⟨[("$set", JsVal.obj (setKey ops "%hash%" JsVal.null))], ?_, ?_, ?_⟩
    · right
      exact ⟨by simpa using hop, rfl⟩
    · rw [show update coll query ops
          = (let r := updateManyDocs (translateQuery query)
               [("$set", JsVal.obj (setKey ops "%hash%" JsVal.null))] coll
             ({ matched := r.2.1, updated := r.2.2 }, r.1))
        from by simp only [update, if_neg hop]]
      rw [updateManyDocs_eq]
    · intro d
      have := applyUpdateSpec_sets_hash []
        (setKey ops "%hash%" JsVal.null) [] d
        (lookupLast_setKey_self ops "%hash%" JsVal.null)
        (by intro op hmem; simp at hmem)
      simpa using this

/-- C1 witness: an operator-document update without `$set` gets one
appended holding the marker clear; the matched document ends with its
marker nulled. -/
theorem c1_update_clears_marker_witness :
    update [[("s", JsVal.str "x"), ("%hash%", JsVal.str "h")], [("s", JsVal.str "y")]]
        [("s", JsVal.str "x")] [("$inc", JsVal.obj [("n", JsVal.num 1)])]
      = ({ matched := 1, updated := 1 },
         [[("s", JsVal.str "x"), ("%hash%", JsVal.null)], [("s", JsVal.str "y")]]) := by
  obtain ⟨spec, hshape, heq, hmark⟩ :=
    c1_update_clears_marker
      [[("s", JsVal.str "x"), ("%hash%", JsVal.str "h")], [("s", JsVal.str "y")]]
      [("s", JsVal.str "x")] [("$inc", JsVal.obj [("n", JsVal.num 1)])]
      (by decide)
      (by intro v h; simp [lookupField] at h)
      (by intro u h; simp [lookupField] at h)
  rcases hshape with ⟨hop, hcase⟩ | ⟨hop, hspec⟩
  · rcases hcase with ⟨s, hs, hspec⟩ | ⟨hs, hspec⟩
    · simp [lookupField] at hs
    · subst hspec
      exact heq.trans rfl
  · exact absurd hop (by simp [isOperator])

/-- C6: `bulk` treats every item's update as a plain-value replacement:
the update document built for an item is always a single `$set` of the
spread item update plus the marker clear, so applying it nulls the
marker and stores each update key as a literal field (last assignment
winning), even when the update is operator-shaped — asymmetric with
`update`, which for the same operator document would build a different
update document; the batched write executes the items in order,
aggregating the matched and modified counts. -/
theorem c6_bulk_plain_replacement :
    (∀ u d : JsObj,
      lookupField "%hash%" (applyUpdateSpec (bulkItemSpec u) d) = some JsVal.null)
    ∧ (∀ (u d : JsObj) (k : String), k ≠ "%hash%" →
      lookupField k (applyUpdateSpec (bulkItemSpec u) d)
        = match lookupLast k u with
          | some v => some v
          | none => lookupField k d)
    ∧ (isOperator [("$inc", JsVal.obj [("n", JsVal.num 1)])] = true
      ∧ bulkItemSpec [("$inc", JsVal.obj [("n", JsVal.num 1)])]
          ≠ prepareOperatorUpdate [("$inc", JsVal.obj [("n", JsVal.num 1)])])
    ∧ (∀ coll : List JsObj, bulk coll [] = ({ matched := 0, updated := 0 }, coll))
    ∧ (∀ (coll : List JsObj) (it : JsObj × JsObj) (rest : List (JsObj × JsObj)),
      bulk coll (it :: rest)
        = (let r := updateOneDocs (translateQuery it.1) (bulkItemSpec it.2) coll
           let rr := bulk r.1 rest
           ({ matched := r.2.1 + rr.1.matched, updated := r.2.2 + rr.1.updated },
             rr.2))) := by
  refine ⟨?_, ?_, ⟨rfl, ?_⟩, fun _ => rfl, ?_⟩
  · intro u d
    have := applyUpdateSpec_sets_hash [] (setKey u "%hash%" JsVal.null) [] d
      (lookupLast_setKey_self u "%hash%" JsVal.null)
      (by intro op hmem; simp at hmem)
    simpa [bulkItemSpec] using this
  · intro u d k hk
    rw [show applyUpdateSpec (bulkItemSpec u) d
        = applySet (setKey u "%hash%" JsVal.null) d from rfl]
    rw [lookupField_applySet k (setKey u "%hash%" JsVal.null) d]
    rw [lookupLast_setKey_ne u "%hash%" JsVal.null k (fun h => hk h.symm)]
  · intro h
    have := congrArg List.length h
    simp [bulkItemSpec, prepareOperatorUpdate, lookupField] at this
  · intro coll it rest
    cases h1 : updateOneDocs (translateQuery it.1) (bulkItemSpec it.2) coll with
    | mk coll' p =>
      cases p with
      | mk m u =>
        cases h2 : bulkWrite coll' (bulkWriteOps rest) with
        | mk mu coll'' =>
          cases mu with
          | mk m' u' =>
            simp [bulk, bulkWrite, bulkWriteOps, h1, h2]

/-- C6 witness: an operator-shaped bulk item update ends up as literal
fields under one `$set`: the marker is nulled and the `$inc` key is
stored verbatim on the document rather than interpreted. -/
theorem c6_bulk_plain_replacement_witness :
    lookupField "%hash%"
      (applyUpdateSpec (bulkItemSpec [("$inc", JsVal.obj [("n", JsVal.num 1)])])
        [("a", JsVal.num 1)]) = some JsVal.null
    ∧ lookupField "$inc"
        (applyUpdateSpec (bulkItemSpec [("$inc", JsVal.obj [("n", JsVal.num 1)])])
          [("a", JsVal.num 1)])
      = some (JsVal.obj [("n", JsVal.num 1)]) :=
  ⟨c6_bulk_plain_replacement.1 [("$inc", JsVal.obj [("n", JsVal.num 1)])]
      [("a", JsVal.num 1)],
   (c6_bulk_plain_replacement.2.1 [("$inc", JsVal.obj [("n", JsVal.num 1)])]
      [("a", JsVal.num 1)] "$inc" (by decide)).trans rfl⟩

theorem storageFind_append_none (storage : List IndexStageState) (sid : String)
    (s : IndexStageState) (h : storageFind storage sid = none) (hs : s.stageId = sid) :
    storageFind (storage ++ [s]) sid = some s := by
  unfold storageFind at h ⊢
  rw [List.filter_append]
  rw [List.head?_eq_none_iff.mp h]
  simp [hs]

theorem storageFind_mem (storage : List IndexStageState) (sid : String)
    (s : IndexStageState) (h : storageFind storage sid = some s) :
    s ∈ storage ∧ s.stageId = sid := by
  unfold storageFind at h
  cases hf : storage.filter (fun r => r.stageId = sid) with
  | nil => rw [hf] at h; simp at h
  | cons b t =>
    rw [hf] at h
    have hb : b = s := by simpa using h
    subst hb
    have hmem : b ∈ storage.filter (fun r => r.stageId = sid) := by
      rw [hf]; exact List.mem_cons_self b t
    have := List.mem_filter.mp hmem
    exact ⟨this.1, by simpa using this.2⟩

theorem storageFind_replace (storage : List IndexStageState) (sid : String)
    (s s' : IndexStageState)
    (hids : storage.Pairwise (fun a b => a._id ≠ b._id))
    (hfind : storageFind storage sid = some s)
    (hsid : s'.stageId = sid) :
    storageFind (storage.map (fun r => if r._id = s._id then s' else r)) sid
      = some s' := by
  induction storage with
  | nil => simp [storageFind] at hfind
  | cons a rest ih =>
    by_cases ha : a.stageId = sid
    · have hs : s = a := by
        have : a = s := by simpa [storageFind, List.filter_cons, ha] using hfind
        exact this.symm
      subst hs
      simp only [List.map_cons, if_pos rfl]
      simp [storageFind, List.filter_cons, hsid]
    · have hfind' : storageFind rest sid = some s := by
        simpa [storageFind, List.filter_cons, ha] using hfind
      have hmem : s ∈ rest := (storageFind_mem rest sid s hfind').1
      have hane : a._id ≠ s._id := (List.pairwise_cons.mp hids).1 s hmem
      rw [List.map_cons, if_neg hane]
      have hrec := ih (List.pairwise_cons.mp hids).2 hfind'
      simpa [storageFind, List.filter_cons, ha] using hrec

theorem load_resolve (storage : List IndexStageState) (state? : Option IndexStageState)
    (sid field : String) (v : JsVal)
    (hcache : state? = none ∨ state? = storageFind storage sid) :
    loadIndexStageStage storage state? sid field v
      = loadIndexStageStage storage (storageFind storage sid) sid field v := by
  rcases hcache with rfl | heq
  · unfold loadIndexStageStage
    cases h : storageFind storage sid <;> simp [h]
  · rw [heq]

theorem load_none_eq (storage : List IndexStageState) (sid field : String) (v : JsVal)
    (hsf : storageFind storage sid = none) (hfield : field ≠ "index") :
    loadIndexStageStage storage none sid field v
      = ((StageResult.str "1",
          some ⟨freshId storage, sid, [(field, v), ("index", JsVal.num 1)]⟩),
         storage ++ [⟨freshId storage, sid, [(field, v), ("index", JsVal.num 1)]⟩]) := by
  unfold loadIndexStageStage
  rw [hsf]
  dsimp only [lookupField, deepEqualOpt, indexOr0]
  rw [setKey_of_forall_ne [(field, v)] "index" _ (by simpa using hfield)]
  rfl

theorem load_some_equal_eq (storage : List IndexStageState) (s : IndexStageState)
    (sid field : String) (v : JsVal)
    (hcond : deepEqualOpt (lookupField field s.attributes) v = true) :
    loadIndexStageStage storage (some s) sid field v
      = ((match lookupField "index" s.attributes with
          | some w => StageResult.str (jsTemplate w)
          | none => StageResult.bool true, some s), storage) := by
  unfold loadIndexStageStage
  dsimp only
  rw [if_pos hcond]

theorem load_some_differ_eq (storage : List IndexStageState) (s : IndexStageState)
    (sid field : String) (v : JsVal)
    (hfield : field ≠ "index")
    (hcond : deepEqualOpt (lookupField field s.attributes) v = false) :
    loadIndexStageStage storage (some s) sid field v
      = ((StageResult.str (toString (indexOr0 s.attributes + 1)),
          some ⟨s._id, sid,
            [(field, v), ("index", JsVal.num (indexOr0 s.attributes + 1))]⟩),
         storage.map (fun r => if r._id = s._id then
           ⟨s._id, sid,
            [(field, v), ("index", JsVal.num (indexOr0 s.attributes + 1))]⟩ else r)) := by
  unfold loadIndexStageStage
  dsimp only
  rw [if_neg (by simp [hcond])]
  rw [setKey_of_forall_ne [(field, v)] "index" _ (by simpa using hfield)]
  rfl

/-- C2: `loadIndexStageStage` with prior state (cached or looked up).
When the candidate is deep-equal to the stored value under the field, the
result is the stringified current index when one exists, else the `true`
sentinel, and nothing is written.  When it differs, the new index is the
previous one (default 0) plus exactly 1, the result is that index
stringified, and a record carrying the new value under the field and the
new index is persisted — appended when absent, replaced in place when
present — so the record stored for the stage id never has a smaller
index after the call than before, giving monotonicity across any
sequence of calls.  Hypotheses: the tracked field is not the reserved
`index` attribute, stored ids are unique, and a supplied cached state is
the record currently stored for the stage id. -/
theorem c2_load_index_stage
    (storage : List IndexStageState) (state? : Option IndexStageState)
    (sid field : String) (v : JsVal)
    (hfield : field ≠ "index")
    (hids : storage.Pairwise (fun a b => a._id ≠ b._id))
    (hcache : state? = none ∨ state? = storageFind storage sid) :
    (deepEqualOpt (lookupField field (storedAttrs storage sid)) v = true →
      (loadIndexStageStage storage state? sid field v).2 = storage
      ∧ (loadIndexStageStage storage state? sid field v).1.2 = storageFind storage sid
      ∧ (lookupField "index" (storedAttrs storage sid) = none →
          (loadIndexStageStage storage state? sid field v).1.1 = StageResult.bool true)
      ∧ (∀ n : Int, lookupField "index" (storedAttrs storage sid) = some (JsVal.num n) →
          (loadIndexStageStage storage state? sid field v).1.1
            = StageResult.str (toString n)))
    ∧ (deepEqualOpt (lookupField field (storedAttrs storage sid)) v = false →
      ∃ st' : IndexStageState,
        (loadIndexStageStage storage state? sid field v).1.1
          = StageResult.str (toString (indexOr0 (storedAttrs storage sid) + 1))
        ∧ (loadIndexStageStage storage state? sid field v).1.2 = some st'
        ∧ st'.stageId = sid
        ∧ lookupField field st'.attributes = some v
        ∧ lookupField "index" st'.attributes
            = some (JsVal.num (indexOr0 (storedAttrs storage sid) + 1))
        ∧ storageFind (loadIndexStageStage storage state? sid field v).2 sid = some st'
        ∧ (storageFind storage sid = none →
            (loadIndexStageStage storage state? sid field v).2 = storage ++ [st'])
        ∧ (∀ s0, storageFind storage sid = some s0 →
            (loadIndexStageStage storage state? sid field v).2
              = storage.map (fun r => if r._id = s0._id then st' else r)))
    ∧ indexOr0 (storedAttrs (loadIndexStageStage storage state? sid field v).2 sid)
        ≥ indexOr0 (storedAttrs storage sid) := by
  rw [load_resolve storage state? sid field v hcache]
  cases hsf : storageFind storage sid with
  | none =>
    have hsa : storedAttrs storage sid = [] := by
      simp [storedAttrs, hsf, attrsOf]
    rw [load_none_eq storage sid field v hsf hfield]
    have hfound : storageFind
        (storage ++ [⟨freshId storage, sid, [(field, v), ("index", JsVal.num 1)]⟩]) sid
      = some ⟨freshId storage, sid, [(field, v), ("index", JsVal.num 1)]⟩ :=
      storageFind_append_none storage sid _ hsf rfl
    refine ⟨?_, ?_, ?_⟩
    · intro hcondT
      rw [hsa] at hcondT
      simp [deepEqualOpt, lookupField] at hcondT
    · intro _
      refine ⟨⟨freshId storage, sid, [(field, v), ("index", JsVal.num 1)]⟩,
        ?_, rfl, rfl, ?_, ?_, hfound, fun _ => rfl, ?_⟩
      · rw [hsa]
        rfl
      · simp [lookupField]
      · rw [hsa]
        simp [lookupField, hfield]
        rfl
      · intro s0 hs0
        simp at hs0
    · rw [hsa, show storedAttrs
          (storage ++ [⟨freshId storage, sid, [(field, v), ("index", JsVal.num 1)]⟩]) sid
        = [(field, v), ("index", JsVal.num 1)] by simp [storedAttrs, hfound, attrsOf]]
      rw [show indexOr0 ([] : JsObj) = 0 from rfl]
      rw [show indexOr0 [(field, v), ("index", JsVal.num 1)] = 1 by
        simp [indexOr0, lookupField, hfield]]
      omega
  | some s =>
    have hsa : storedAttrs storage sid = s.attributes := by
      simp [storedAttrs, hsf, attrsOf]
    by_cases hcond : deepEqualOpt (lookupField field s.attributes) v = true
    · rw [load_some_equal_eq storage s sid field v hcond]
      refine ⟨?_, ?_, ?_⟩
      · intro _
        refine ⟨rfl, rfl, ?_, ?_⟩
        · intro hnone
          rw [hsa] at hnone
          dsimp only
          rw [hnone]
        · intro n hn
          rw [hsa] at hn
          dsimp only
          rw [hn]
          rfl
      · intro hcondF
        rw [hsa] at hcondF
        exact absurd hcond (by simp [hcondF])
      · exact ge_of_eq rfl
    · have hcondF : deepEqualOpt (lookupField field s.attributes) v = false := by
        simpa using hcond
      rw [load_some_differ_eq storage s sid field v hfield hcondF]
      have hfound : storageFind
          (storage.map (fun r => if r._id = s._id then
            ⟨s._id, sid, [(field, v), ("index", JsVal.num (indexOr0 s.attributes + 1))]⟩
            else r)) sid
        = some ⟨s._id, sid,
            [(field, v), ("index", JsVal.num (indexOr0 s.attributes + 1))]⟩ :=
        storageFind_replace storage sid s _ hids hsf rfl
      refine ⟨?_, ?_, ?_⟩
      · intro hcondT
        rw [hsa] at hcondT
        rw [hcondT] at hcondF
        simp at hcondF
      · intro _
        refine ⟨⟨s._id, sid,
            [(field, v), ("index", JsVal.num (indexOr0 s.attributes + 1))]⟩,
          ?_, rfl, rfl, ?_, ?_, hfound, ?_, ?_⟩
        · rw [hsa]
        · simp [lookupField]
        · rw [hsa]
          simp [lookupField, hfield]
        · intro h0
          simp at h0
        · intro s0 hs0
          have : s0 = s := (Option.some.inj hs0).symm
          subst this
          rfl
      · rw [hsa, show storedAttrs
            (storage.map (fun r => if r._id = s._id then
              ⟨s._id, sid, [(field, v), ("index", JsVal.num (indexOr0 s.attributes + 1))]⟩
              else r)) sid
          = [(field, v), ("index", JsVal.num (indexOr0 s.attributes + 1))]
          by simp [storedAttrs, hfound, attrsOf]]
        have : indexOr0 [(field, v), ("index", JsVal.num (indexOr0 s.attributes + 1))]
            = indexOr0 s.attributes + 1 := by
          simp [indexOr0, lookupField, hfield]
        rw [this]
        omega

/-- C2 witness: the spec's worked example — first call for a fresh stage
with value 5 returns "1" and persists the value under the field with
index 1. -/
theorem c2_load_index_stage_witness :
    deepEqualOpt (lookupField "version" (storedAttrs [] "stage-1")) (JsVal.num 5) = false
    ∧ (loadIndexStageStage [] none "stage-1" "version" (JsVal.num 5)).1.1
        = StageResult.str "1"
    ∧ ∃ st' : IndexStageState,
        storageFind (loadIndexStageStage [] none "stage-1" "version" (JsVal.num 5)).2
            "stage-1" = some st'
        ∧ lookupField "version" st'.attributes = some (JsVal.num 5)
        ∧ lookupField "index" st'.attributes = some (JsVal.num 1) := by
  obtain ⟨st', h1, h2, h3, h4, h5, h6, h7, h8⟩ :=
    (c2_load_index_stage [] none "stage-1" "version" (JsVal.num 5)
      (by decide) (by simp) (Or.inl rfl)).2.1 rfl
  exact ⟨rfl, h1.trans rfl, st', h6, h4, h5.trans rfl⟩

theorem mem_addUnique (l : List String) (y x : String) :
    x ∈ addUnique l y ↔ x ∈ l ∨ x = y := by
  by_cases hy : y ∈ l
  · simp only [addUnique, if_pos hy]
    constructor
    · exact Or.inl
    · rintro (hx | rfl)
      · exact hx
      · exact hy
  · simp [addUnique, if_neg hy, List.mem_append]

theorem mem_foldl_addUnique_init : ∀ (l init : List String) (x : String),
    x ∈ init → x ∈ l.foldl addUnique init
  | [], _, _, hx => hx
  | _ :: rest, init, x, hx =>
    mem_foldl_addUnique_init rest _ x ((mem_addUnique init _ x).mpr (Or.inl hx))

theorem mem_foldl_addUnique_self : ∀ (l init : List String) (x : String),
    x ∈ l → x ∈ l.foldl addUnique init
  | [], _, x, hx => by simp at hx
  | a :: rest, init, x, hx => by
    rcases List.mem_cons.mp hx with rfl | hx'
    · exact mem_foldl_addUnique_init rest _ x ((mem_addUnique init x x).mpr (Or.inr rfl))
    · exact mem_foldl_addUnique_self rest _ x hx'

theorem mem_mixinDescAdd_init (h : ClassHierarchy) (a : String) :
    ∀ (l init : List String) (x : String), x ∈ init →
      x ∈ l.foldl (fun acc dd => if h.isMixin dd then addUnique acc dd else acc) init
  | [], _, _, hx => hx
  | b :: rest, init, x, hx => by
    rw [List.foldl_cons]
    apply mem_mixinDescAdd_init h a rest _ x
    by_cases hp : h.isMixin b
    · rw [if_pos hp]
      exact (mem_addUnique init b x).mpr (Or.inl hx)
    · rwa [if_neg hp]

theorem mem_mixinDescAdd_self (h : ClassHierarchy) (a : String) :
    ∀ (l init : List String) (x : String), x ∈ l → h.isMixin x = true →
      x ∈ l.foldl (fun acc dd => if h.isMixin dd then addUnique acc dd else acc) init
  | [], _, x, hx, _ => by simp at hx
  | b :: rest, init, x, hx, hmix => by
    rw [List.foldl_cons]
    rcases List.mem_cons.mp hx with rfl | hx'
    · apply mem_mixinDescAdd_init h a rest _ x
      rw [if_pos hmix]
      exact (mem_addUnique init x x).mpr (Or.inr rfl)
    · exact mem_mixinDescAdd_self h a rest _ x hx' hmix

theorem ancFold_visits_prefix (h : ClassHierarchy) :
    ∀ (l : List String) (acc : List String × List String),
      ∃ t, (l.foldl (ancStep h) acc).1 = acc.1 ++ t
  | [], acc => ⟨[], by simp⟩
  | a :: rest, acc => by
    obtain ⟨t, ht⟩ := ancFold_visits_prefix h rest (ancStep h acc a)
    rw [List.foldl_cons, ht]
    cases hc : h.ftContext a with
    | none => exact ⟨t, by simp [ancStep, hc]⟩
    | some c => exact ⟨c :: t, by simp [ancStep, hc]⟩

theorem ancFold_desc_init (h : ClassHierarchy) :
    ∀ (l : List String) (acc : List String × List String) (x : String),
      x ∈ acc.2 → x ∈ (l.foldl (ancStep h) acc).2
  | [], _, _, hx => hx
  | a :: rest, acc, x, hx => by
    rw [List.foldl_cons]
    apply ancFold_desc_init h rest (ancStep h acc a) x
    exact mem_mixinDescAdd_init h a (h.getDescendants a) acc.2 x hx

theorem ancFold_desc_mixin (h : ClassHierarchy) :
    ∀ (l : List String) (acc : List String × List String) (a x : String),
      a ∈ l → x ∈ h.getDescendants a → h.isMixin x = true →
      x ∈ (l.foldl (ancStep h) acc).2
  | [], _, a, x, hmem, _, _ => by simp at hmem
  | b :: rest, acc, a, x, hmem, hdesc, hmix => by
    rw [List.foldl_cons]
    rcases List.mem_cons.mp hmem with rfl | hmem'
    · apply ancFold_desc_init h rest (ancStep h acc a) x
      exact mem_mixinDescAdd_self h a (h.getDescendants a) acc.2 x hdesc hmix
    · exact ancFold_desc_mixin h rest (ancStep h acc b) a x hmem' hdesc hmix

theorem visitFold_prefix (h : ClassHierarchy) :
    ∀ (l vs : List String), ∃ t, l.foldl (visitMixins h) vs = vs ++ t
  | [], vs => ⟨[], by simp⟩
  | d :: rest, vs => by
    obtain ⟨t, ht⟩ := visitFold_prefix h rest (visitMixins h vs d)
    rw [List.foldl_cons, ht]
    by_cases hm : h.isMixin d
    · cases hc : h.ftContext d with
      | none => exact ⟨t, by simp [visitMixins, hm, hc]⟩
      | some c => exact ⟨c :: t, by simp [visitMixins, hm, hc]⟩
    · exact ⟨t, by simp [visitMixins, hm]⟩

theorem visitFold_init (h : ClassHierarchy) :
    ∀ (l vs : List String) (x : String), x ∈ vs → x ∈ l.foldl (visitMixins h) vs
  | [], _, _, hx => hx
  | d :: rest, vs, x, hx => by
    rw [List.foldl_cons]
    apply visitFold_init h rest (visitMixins h vs d) x
    obtain ⟨t, ht⟩ : ∃ t, visitMixins h vs d = vs ++ t := by
      by_cases hm : h.isMixin d
      · cases hc : h.ftContext d with
        | none => exact ⟨[], by simp [visitMixins, hm, hc]⟩
        | some c => exact ⟨[c], by simp [visitMixins, hm, hc]⟩
      · exact ⟨[], by simp [visitMixins, hm]⟩
    rw [ht]
    exact List.mem_append.mpr (Or.inl hx)

theorem visitFold_visits (h : ClassHierarchy) :
    ∀ (l vs : List String) (d c : String), d ∈ l → h.isMixin d = true →
      h.ftContext d = some c → c ∈ l.foldl (visitMixins h) vs
  | [], _, _, _, hmem, _, _ => by simp at hmem
  | b :: rest, vs, d, c, hmem, hmix, hctx => by
    rw [List.foldl_cons]
    rcases List.mem_cons.mp hmem with rfl | hmem'
    · apply visitFold_init h rest _ c
      rw [show visitMixins h vs d = vs ++ [c] by simp [visitMixins, hmix, hctx]]
      exact List.mem_append.mpr (Or.inr (by simp))
    · exact visitFold_visits h rest (visitMixins h vs b) d c hmem' hmix hctx

/-- C8: `traverseFullTextContexts` visits the class's own declared
context first — before any ancestor's or mixin's — and visits the
declared context of every mixin found among the class's own descendants
or among the descendants of any of its ancestors. -/
theorem c8_traverse_contexts (h : ClassHierarchy) (oc : String) :
    (∀ c, h.ftContext oc = some c →
      (traverseFullTextContexts h oc).head? = some c)
    ∧ (∀ d c, h.isMixin d = true → h.ftContext d = some c →
      (d ∈ h.getDescendants oc ∨ ∃ a ∈ h.getAncestors oc, d ∈ h.getDescendants a) →
      c ∈ traverseFullTextContexts h oc) := by
  constructor
  · intro c hc
    unfold traverseFullTextContexts
    rw [hc]
    obtain ⟨t1, ht1⟩ := ancFold_visits_prefix h (h.getAncestors oc)
      ([c], (h.getDescendants oc).foldl addUnique [])
    obtain ⟨t2, ht2⟩ := visitFold_prefix h
      ((h.getAncestors oc).foldl (ancStep h)
        ([c], (h.getDescendants oc).foldl addUnique [])).2
      ((h.getAncestors oc).foldl (ancStep h)
        ([c], (h.getDescendants oc).foldl addUnique [])).1
    rw [ht2, ht1]
    simp
  · intro d c hmix hctx hloc
    unfold traverseFullTextContexts
    have hd2 : d ∈ ((h.getAncestors oc).foldl (ancStep h)
        ((match h.ftContext oc with | some c0 => [c0] | none => []),
          (h.getDescendants oc).foldl addUnique [])).2 := by
      rcases hloc with hown | ⟨a, ha, hdesc⟩
      · apply ancFold_desc_init
        exact mem_foldl_addUnique_self (h.getDescendants oc) [] d hown
      · exact ancFold_desc_mixin h (h.getAncestors oc) _ a d ha hdesc hmix
    exact visitFold_visits h _ _ d c hd2 hmix hctx

/-- C8 witness: in a concrete hierarchy the object's own context is
visited first, and the context of a mixin found among an ancestor's
descendants is visited. -/
theorem c8_traverse_contexts_witness :
    (traverseFullTextContexts
      ⟨fun c => if c = "obj" then ["obj", "base"] else [],
       fun c => if c = "obj" then ["obj", "mix1"]
         else if c = "base" then ["obj", "base", "mix2"] else [],
       fun c => c = "mix1" ∨ c = "mix2",
       fun c => if c = "obj" then some "ctxO"
         else if c = "base" then some "ctxB"
         else if c = "mix2" then some "ctxM2" else none⟩ "obj").head?
      = some "ctxO"
    ∧ "ctxM2" ∈ traverseFullTextContexts
      ⟨fun c => if c = "obj" then ["obj", "base"] else [],
       fun c => if c = "obj" then ["obj", "mix1"]
         else if c = "base" then ["obj", "base", "mix2"] else [],
       fun c => c = "mix1" ∨ c = "mix2",
       fun c => if c = "obj" then some "ctxO"
         else if c = "base" then some "ctxB"
         else if c = "mix2" then some "ctxM2" else none⟩ "obj" :=
  ⟨(c8_traverse_contexts _ "obj").1 "ctxO" rfl,
   (c8_traverse_contexts _ "obj").2 "mix2" "ctxM2" (by decide) rfl
     (Or.inr ⟨"base", by decide, by decide⟩)⟩

end Spec2Proof
